import Mathlib

/-!
Shallow embedding of `src/pipeline.py`, a batch process-mining driver.

The repository's own code is glue around an external library (pm4py): it
scans a directory for ".xes" event logs, sorts them by filename, and for
each log runs four discovery miners (timed), computes five conformance
metrics per discovered model (each guarded by its own try/except),
visualizes each model, exports each model as PNML, and writes an
execution-times text file and a conformance-metrics CSV.

The embedding models every external library call as an oracle value of
type `Except E α` (the library either returns a result or raises), and
models all file-system effects as an explicit trace of operations
(`FSOp`) together with a small operational semantics (`runOp`/`runOps`)
over a file-system state (`FS`).  Pure glue (string formatting, CSV row
construction, ordering, filtering) is translated directly from the
Python source.
-/

namespace Pipeline

/-- Python string comparison, code-point lexicographic on the character
sequences (`str.__lt__` / `str.__le__`): this is the order used by
`list.sort(key=lambda x: x.name)` in `main`. -/
def lexLe : List Char → List Char → Bool
  | [], _ => true
  | _ :: _, [] => false
  | a :: as, b :: bs => if a < b then true else if b < a then false else lexLe as bs

/-- Python `str.endswith(suf)`: `suf` is a suffix of the character
sequence of `s`. -/
def endsWith (s suf : String) : Bool := suf.data.isSuffixOf s.data

/-- Python `str.startswith(p)`. -/
def startsWith (s p : String) : Bool := p.data.isPrefixOf s.data

/-- POSIX `os.path.join(a, b)` for two components: an absolute second
component replaces the first; otherwise a separator is inserted unless
`a` is empty or already ends with one. -/
def joinPath (a b : String) : String :=
  if startsWith b "/" then b
  else if a = "" || endsWith a "/" then a ++ b
  else a ++ "/" ++ b

/-- Payload of a written file, by kind: the execution-times text file is
a list of written lines, the conformance CSV a list of rows (each a list
of cells), and the PNG / PNML outputs are opaque library-rendered blobs. -/
inductive FData where
  | text (lines : List String)
  | csv (rows : List (List String))
  | png
  | pnml
deriving DecidableEq

/-- A file-system operation performed by the pipeline: `os.makedirs(p,
exist_ok=ok)`, or writing a whole file (every `open(..., "w")` in the
source writes the complete file at once). -/
inductive FSOp where
  | makedirs (path : String) (exist_ok : Bool)
  | write (path : String) (data : FData)
deriving DecidableEq

/-- File-system state: the set of existing directories and the files
with their current contents. -/
structure FS where
  dirs : List String
  files : List (String × FData)
deriving DecidableEq

/-- Semantics of one operation.  `os.makedirs` with `exist_ok=False`
raises `FileExistsError` when the directory exists; with
`exist_ok=True` it succeeds either way.  `open(path, "w")` truncates and
overwrites, so a write always succeeds and replaces any previous file at
that path. -/
def runOp (fs : FS) : FSOp → Except String FS
  | .makedirs p ok =>
      if p ∈ fs.dirs then
        if ok then .ok fs else .error "FileExistsError"
      else .ok { fs with dirs := p :: fs.dirs }
  | .write p d => .ok { dirs := fs.dirs, files := (p, d) :: fs.files.filter (fun q => q.1 != p) }

/-- Run a trace of operations in order, stopping at the first failure. -/
def runOps (fs : FS) : List FSOp → Except String FS
  | [] => .ok fs
  | op :: rest =>
      match runOp fs op with
      | .ok fs2 => runOps fs2 rest
      | .error e => .error e

/-- Outcomes of the five pm4py conformance calls for a fixed
(event log, model, initial marking, final marking): each call either
returns a metric value or raises. -/
structure ConfOracle (E V : Type) where
  fitness_alignments : Except E V
  fitness_token_based_replay : Except E V
  precision_alignments : Except E V
  precision_token_based_replay : Except E V
  generalization_tbr : Except E V

/-- The dictionary built at the end of `calc_conformance`: the six keys
`algorithm`, `fitness_alignments`, `fitness_token_based`,
`precision_alignments`, `precision_token_based`, `generalization`.
Each metric is `Option V`: `none` models Python `None`. -/
structure Metrics (V : Type) where
  algorithm : String
  fitness_alignments : Option V
  fitness_token_based : Option V
  precision_alignments : Option V
  precision_token_based : Option V
  generalization : Option V
deriving DecidableEq

/-- One guarded metric computation: `try: x = call(...) except Exception:
x = None`. -/
def tryCall {E V : Type} : Except E V → Option V
  | .ok v => some v
  | .error _ => none

/-- `calc_conformance`: each of the five metric calls is wrapped in its
own try/except that substitutes `None` on failure; the function itself
never raises and always returns the six-key dictionary. -/
def calc_conformance {E V : Type} (o : ConfOracle E V) (algorithm_name : String) : Metrics V :=
  { algorithm := algorithm_name
    fitness_alignments := tryCall o.fitness_alignments
    fitness_token_based := tryCall o.fitness_token_based_replay
    precision_alignments := tryCall o.precision_alignments
    precision_token_based := tryCall o.precision_token_based_replay
    generalization := tryCall o.generalization_tbr }

/-- Names of the five metric columns of the CSV (after `algorithm`),
used to index fields of `ConfOracle` and `Metrics` uniformly. -/
inductive MetricKey where
  | fitness_alignments
  | fitness_token_based
  | precision_alignments
  | precision_token_based
  | generalization
deriving DecidableEq

/-- Select the library-call outcome for a metric. -/
def oracleAt {E V : Type} : MetricKey → ConfOracle E V → Except E V
  | .fitness_alignments, o => o.fitness_alignments
  | .fitness_token_based, o => o.fitness_token_based_replay
  | .precision_alignments, o => o.precision_alignments
  | .precision_token_based, o => o.precision_token_based_replay
  | .generalization, o => o.generalization_tbr

/-- Select the recorded metric value from the result dictionary. -/
def metricAt {V : Type} : MetricKey → Metrics V → Option V
  | .fitness_alignments, m => m.fitness_alignments
  | .fitness_token_based, m => m.fitness_token_based
  | .precision_alignments, m => m.precision_alignments
  | .precision_token_based, m => m.precision_token_based
  | .generalization, m => m.generalization

/-- Column index of a metric in a CSV row (column 0 is `algorithm`). -/
def columnIndex : MetricKey → Nat
  | .fitness_alignments => 1
  | .fitness_token_based => 2
  | .precision_alignments => 3
  | .precision_token_based => 4
  | .generalization => 5

/-- A conformance oracle in which exactly the call for key `k` raises
(with exception `e`) and every other call returns its value from `vs`. -/
def oracleWithFailure {E V : Type} (k : MetricKey) (e : E) (vs : MetricKey → V) :
    ConfOracle E V :=
  { fitness_alignments :=
      if k = .fitness_alignments then .error e else .ok (vs .fitness_alignments)
    fitness_token_based_replay :=
      if k = .fitness_token_based then .error e else .ok (vs .fitness_token_based)
    precision_alignments :=
      if k = .precision_alignments then .error e else .ok (vs .precision_alignments)
    precision_token_based_replay :=
      if k = .precision_token_based then .error e else .ok (vs .precision_token_based)
    generalization_tbr :=
      if k = .generalization then .error e else .ok (vs .generalization) }

/-- The `fieldnames` list of `save_conformance_to_csv`. -/
def fieldnames : List String :=
  ["algorithm", "fitness_alignments", "fitness_token_based",
   "precision_alignments", "precision_token_based", "generalization"]

/-- How `csv.DictWriter.writerow` renders one cell: Python `None` becomes
an empty cell, any other value is rendered by `fmt` (`str` on the
library's float). -/
def csvCell {V : Type} (fmt : V → String) : Option V → String
  | none => ""
  | some v => fmt v

/-- The CSV data row written for one metrics dictionary, cells in
`fieldnames` order. -/
def csvRow {V : Type} (fmt : V → String) (m : Metrics V) : List String :=
  [m.algorithm,
   csvCell fmt m.fitness_alignments,
   csvCell fmt m.fitness_token_based,
   csvCell fmt m.precision_alignments,
   csvCell fmt m.precision_token_based,
   csvCell fmt m.generalization]

/-- `save_conformance_to_csv`: ensure the output directory exists
(`exist_ok=True`), then write `conformance_metrics.csv` containing the
header row followed by one data row per metrics dictionary, in list
order. -/
def save_conformance_to_csv {V : Type} (fmt : V → String) (metrics_list : List (Metrics V))
    (output_dir : String) : List FSOp :=
  [FSOp.makedirs output_dir true,
   FSOp.write (joinPath output_dir "conformance_metrics.csv")
     (FData.csv (fieldnames :: metrics_list.map (csvRow fmt)))]

/-- Outcomes of the discovery-phase library calls on a fixed event log:
the four miner `apply` calls (the inductive miner returns a process tree
of type `T`, converted by `pm4py.convert_to_petri_net`), plus the
already-formatted `f"{t:.3f}"` rendering of each measured execution
time. -/
structure DiscOracle (E M T : Type) where
  alpha_apply : Except E M
  inductive_apply : Except E T
  convert_to_petri_net : T → Except E M
  heuristics_apply : Except E M
  ilp_apply : Except E M
  alpha_time : String
  inductive_time : String
  heuristics_time : String
  ilp_time : String

/-- The algorithm keys of the models dictionary returned by
`discover_models`, in Python dict insertion order. -/
def algNames : List String := ["alpha", "inductive", "heuristics", "ilp"]

/-- The lines written to `execution_times.txt` (each `f.write` in the
source writes exactly one newline-terminated line): a two-line header
followed by one `name: time` pair per algorithm, iterating the
`execution_times` dict in insertion order. -/
def executionTimesLines {E M T : Type} (o : DiscOracle E M T) : List String :=
  ["Algorithm Execution Times (seconds)",
   "================================",
   "alpha: " ++ o.alpha_time,
   "inductive: " ++ o.inductive_time,
   "heuristics: " ++ o.heuristics_time,
   "ilp: " ++ o.ilp_time]

/-- `discover_models`: run the four miners in order (unguarded — the
first raising call propagates, and since all file output happens after
the miners, a miner failure produces no file-system operation at all);
on success create the output directory, write `execution_times.txt`,
and return the models dictionary as an insertion-ordered association
list. -/
def discover_models {E M T : Type} (o : DiscOracle E M T) (output_dir : String) :
    Except E (List FSOp × List (String × M)) :=
  match o.alpha_apply with
  | .error e => .error e
  | .ok alpha_net =>
    match o.inductive_apply with
    | .error e => .error e
    | .ok process_tree =>
      match o.convert_to_petri_net process_tree with
      | .error e => .error e
      | .ok inductive_net =>
        match o.heuristics_apply with
        | .error e => .error e
        | .ok heuristics_net =>
          match o.ilp_apply with
          | .error e => .error e
          | .ok ilp_net =>
            .ok ([FSOp.makedirs output_dir true,
                  FSOp.write (joinPath output_dir "execution_times.txt")
                    (FData.text (executionTimesLines o))],
                 [("alpha", alpha_net), ("inductive", inductive_net),
                  ("heuristics", heuristics_net), ("ilp", ilp_net)])

/-- Per-algorithm library outcomes for the loop body of
`process_event_log`: the five conformance calls, the visualization
(`pn_visualizer.apply` + `save`, collapsed to one outcome since the
source distinguishes them only by which call raises), and
`pm4py.write_pnml`. -/
structure AlgOracle (E V : Type) where
  conf : ConfOracle E V
  visualize_result : Except E Unit
  write_pnml_result : Except E Unit

/-- `visualize_model`: ensure the output directory exists, render the
Petri net (unguarded), and save `{algorithm_name}_petri_net.png`. -/
def visualize_model {E V : Type} (a : AlgOracle E V) (algorithm_name output_dir : String) :
    List FSOp × Except E Unit :=
  match a.visualize_result with
  | .error e => ([FSOp.makedirs output_dir true], .error e)
  | .ok _ =>
      ([FSOp.makedirs output_dir true,
        FSOp.write (joinPath output_dir (algorithm_name ++ "_petri_net.png")) FData.png],
       .ok ())

/-- `export_pnml`: ensure the output directory exists, write
`{algorithm_name}_model.pnml` (unguarded), and return the output path. -/
def export_pnml {E V : Type} (a : AlgOracle E V) (algorithm_name output_dir : String) :
    List FSOp × Except E String :=
  match a.write_pnml_result with
  | .error e => ([FSOp.makedirs output_dir true], .error e)
  | .ok _ =>
      ([FSOp.makedirs output_dir true,
        FSOp.write (joinPath output_dir (algorithm_name ++ "_model.pnml")) FData.pnml],
       .ok (joinPath output_dir (algorithm_name ++ "_model.pnml")))

/-- The `for algorithm_name, (model, im, fm) in models.items()` loop of
`process_event_log`: per model, compute conformance (never raises),
visualize, export PNML; a raise in visualize/export aborts the loop,
keeping the operations already performed and discarding the metrics
collected so far (the CSV is written only after the loop). -/
def processModels {E M V : Type} (algs : String → AlgOracle E V) (output_dir : String) :
    List (String × M) → List FSOp × Except E (List (Metrics V) × List (String × String))
  | [] => ([], .ok ([], []))
  | (algorithm_name, _model) :: rest =>
      let metrics := calc_conformance (algs algorithm_name).conf algorithm_name
      match visualize_model (V := V) (algs algorithm_name) algorithm_name output_dir with
      | (vops, .error e) => (vops, .error e)
      | (vops, .ok _) =>
          match export_pnml (V := V) (algs algorithm_name) algorithm_name output_dir with
          | (eops, .error e) => (vops ++ eops, .error e)
          | (eops, .ok pnml_file) =>
              match processModels algs output_dir rest with
              | (rops, .error e) => (vops ++ eops ++ rops, .error e)
              | (rops, .ok (ms, ps)) =>
                  (vops ++ eops ++ rops,
                   .ok (metrics :: ms, (algorithm_name, pnml_file) :: ps))

/-- All library outcomes relevant to processing one event-log file:
`pm4py.read_xes`, the discovery-phase calls, and the per-algorithm-name
loop-body calls. -/
structure LogOracle (E M T V : Type) where
  read_xes : Except E Unit
  disc : DiscOracle E M T
  algs : String → AlgOracle E V

/-- `process_event_log`: load the log, discover the four models (writing
the execution-times file), loop over the models, then write the
conformance CSV.  The returned trace is every file-system operation
performed before the first uncaught raise (if any). -/
def process_event_log {E M T V : Type} (fmt : V → String) (o : LogOracle E M T V)
    (output_dir : String) :
    List FSOp × Except E (List (String × M) × List (String × String)) :=
  match o.read_xes with
  | .error e => ([], .error e)
  | .ok _ =>
    match discover_models o.disc output_dir with
    | .error e => ([], .error e)
    | .ok (ops1, models) =>
      match processModels (M := M) o.algs output_dir models with
      | (ops2, .error e) => (ops1 ++ ops2, .error e)
      | (ops2, .ok (conformance_metrics, pnml_files)) =>
          (ops1 ++ ops2 ++ save_conformance_to_csv fmt conformance_metrics output_dir,
           .ok (models, pnml_files))

/-- An `os.scandir` entry: its name and whether `entry.is_file()`
holds. -/
structure DirEntry where
  name : String
  is_file : Bool
deriving DecidableEq

/-- The selection loop of `main`: keep an entry iff `entry.is_file()`
and `entry.name.endswith(".xes")`, preserving scandir enumeration
order. -/
def selectXes (entries : List DirEntry) : List DirEntry :=
  entries.filter (fun e => e.is_file && endsWith e.name ".xes")

/-- The comparison used by `xes_files.sort(key=lambda x: x.name)`. -/
def nameLe (a b : DirEntry) : Prop := lexLe a.name.data b.name.data = true

instance : DecidableRel nameLe := fun a b => by unfold nameLe; infer_instance

/-- `xes_files.sort(key=lambda x: x.name)`: a comparison sort by name. -/
def sortByName (l : List DirEntry) : List DirEntry := l.insertionSort nameLe

/-- The per-file output directory chosen by `main`:
`os.path.join(output_base_dir, file_entry.name)`. -/
def output_directory (output_base_dir : String) (e : DirEntry) : String :=
  joinPath output_base_dir e.name

/-- The `for file_entry in xes_files` loop of `main`: process each file
into its own output directory, accumulating the results dictionary; an
uncaught raise aborts the whole run, keeping the operations performed so
far. -/
def mainLoop {E M T V : Type} (fmt : V → String) (oracles : String → LogOracle E M T V)
    (output_base_dir : String) :
    List DirEntry →
      List FSOp ×
        Except E (List (String × (List (String × M) × List (String × String))))
  | [] => ([], .ok [])
  | file_entry :: rest =>
      match process_event_log fmt (oracles file_entry.name)
          (output_directory output_base_dir file_entry) with
      | (ops, .error e) => (ops, .error e)
      | (ops, .ok res) =>
          let r := mainLoop fmt oracles output_base_dir rest
          (ops ++ r.1, r.2.map (fun l => (file_entry.name, res) :: l))

/-- `main`: select the `.xes` regular files from the directory entries,
sort them by name, and process them in order. -/
def main {E M T V : Type} (fmt : V → String) (oracles : String → LogOracle E M T V)
    (entries : List DirEntry) (output_base_dir : String) :
    List FSOp ×
      Except E (List (String × (List (String × M) × List (String × String)))) :=
  mainLoop fmt oracles output_base_dir (sortByName (selectXes entries))

/-- The payloads of the CSV writes in a trace, in order. -/
def csvData : FSOp → Option (List (List String))
  | .write _ (.csv rows) => some rows
  | _ => none

/-- All CSV tables written in a trace. -/
def csvWrites (ops : List FSOp) : List (List (List String)) := ops.filterMap csvData

/-- The payloads of the text-file writes in a trace, in order. -/
def textData : FSOp → Option (List String)
  | .write _ (.text lines) => some lines
  | _ => none

/-- All text files written in a trace. -/
def textWrites (ops : List FSOp) : List (List String) := ops.filterMap textData

/-- An operation that cannot fail in any file-system state: every
`makedirs` with `exist_ok=True`, and every write. -/
def opSafe : FSOp → Bool
  | .makedirs _ ok => ok
  | .write _ _ => true

/-- The Python string order is transitive. -/
theorem lexLe_trans : ∀ (a b c : List Char),
    lexLe a b = true → lexLe b c = true → lexLe a c = true
  | [], _, _, _, _ => rfl
  | _ :: _, [], _, h1, _ => by simp [lexLe] at h1
  | _ :: _, _ :: _, [], _, h2 => by simp [lexLe] at h2
  | x :: xs, y :: ys, z :: zs, h1, h2 => by
      simp only [lexLe] at h1 h2 ⊢
      rcases lt_trichotomy x y with hxy | hxy | hxy
      · rcases lt_trichotomy y z with hyz | hyz | hyz
        · rw [if_pos (lt_trans hxy hyz)]
        · subst hyz; rw [if_pos hxy]
        · rw [if_neg (lt_asymm hyz), if_pos hyz] at h2; simp at h2
      · subst hxy
        rw [if_neg (lt_irrefl x), if_neg (lt_irrefl x)] at h1
        rcases lt_trichotomy x z with hxz | hxz | hxz
        · rw [if_pos hxz]
        · subst hxz
          rw [if_neg (lt_irrefl x), if_neg (lt_irrefl x)] at h2 ⊢
          exact lexLe_trans xs ys zs h1 h2
        · rw [if_neg (lt_asymm hxz), if_pos hxz] at h2; simp at h2
      · rw [if_neg (lt_asymm hxy), if_pos hxy] at h1; simp at h1

/-- The Python string order is total. -/
theorem lexLe_total : ∀ (a b : List Char), lexLe a b = true ∨ lexLe b a = true
  | [], _ => Or.inl rfl
  | _ :: _, [] => Or.inr rfl
  | x :: xs, y :: ys => by
      simp only [lexLe]
      rcases lt_trichotomy x y with h | h | h
      · exact Or.inl (by rw [if_pos h])
      · subst h
        rw [if_neg (lt_irrefl x), if_neg (lt_irrefl x),
            if_neg (lt_irrefl x), if_neg (lt_irrefl x)]
        exact lexLe_total xs ys
      · exact Or.inr (by rw [if_pos h])

instance : IsTotal DirEntry nameLe :=
  ⟨fun a b => lexLe_total a.name.data b.name.data⟩

instance : IsTrans DirEntry nameLe :=
  ⟨fun a b c => lexLe_trans a.name.data b.name.data c.name.data⟩

/-- Appending on the left preserves a string suffix. -/
theorem endsWith_append (a n suf : String) (h : endsWith n suf = true) :
    endsWith (a ++ n) suf = true := by
  unfold endsWith at h ⊢
  rw [List.isSuffixOf_iff_suffix] at h ⊢
  rw [String.data_append]
  exact h.trans (List.suffix_append _ _)

/-- `os.path.join` preserves any suffix of its second component. -/
theorem endsWith_joinPath (a n suf : String) (h : endsWith n suf = true) :
    endsWith (joinPath a n) suf = true := by
  unfold joinPath
  split
  · exact h
  · split
    · exact endsWith_append _ _ _ h
    · exact endsWith_append _ _ _ h

/-- Membership in the sorted selection of `main`: an entry is processed
iff it was enumerated, is a file, and its name ends in ".xes". -/
theorem mem_sorted_selection (entries : List DirEntry) (e : DirEntry) :
    e ∈ sortByName (selectXes entries)
      ↔ e ∈ entries ∧ e.is_file = true ∧ endsWith e.name ".xes" = true := by
  unfold sortByName
  rw [List.Perm.mem_iff (List.perm_insertionSort nameLe _)]
  simp [selectXes, List.mem_filter, and_assoc]

/-- On success, `discover_models` performs exactly the directory
creation and the execution-times write, and returns the four models
keyed in the fixed insertion order. -/
theorem discover_models_ok {E M T : Type} {o : DiscOracle E M T} {dir : String}
    {ops : List FSOp} {models : List (String × M)}
    (h : discover_models o dir = .ok (ops, models)) :
    ops = [FSOp.makedirs dir true,
           FSOp.write (joinPath dir "execution_times.txt")
             (FData.text (executionTimesLines o))]
    ∧ models.map Prod.fst = algNames := by
  unfold discover_models at h
  cases ha : o.alpha_apply with
  | error e => simp only [ha] at h; exact Except.noConfusion h
  | ok alpha_net =>
    simp only [ha] at h
    cases hi : o.inductive_apply with
    | error e => simp only [hi] at h; exact Except.noConfusion h
    | ok process_tree =>
      simp only [hi] at h
      cases hc : o.convert_to_petri_net process_tree with
      | error e => simp only [hc] at h; exact Except.noConfusion h
      | ok inductive_net =>
        simp only [hc] at h
        cases hh : o.heuristics_apply with
        | error e => simp only [hh] at h; exact Except.noConfusion h
        | ok heuristics_net =>
          simp only [hh] at h
          cases hl : o.ilp_apply with
          | error e => simp only [hl] at h; exact Except.noConfusion h
          | ok ilp_net =>
            simp only [hl] at h
            injection h with h
            injection h with hops hms
            subst hops
            subst hms
            exact ⟨rfl, rfl⟩

/-- Operations emitted between the execution-times write and the final
CSV write: directory creations with `exist_ok=True` and PNG/PNML writes
only — never a text or CSV write. -/
def opBenign : FSOp → Bool
  | .makedirs _ ok => ok
  | .write _ (.csv _) => false
  | .write _ (.text _) => false
  | .write _ _ => true

/-- A benign operation is not a CSV write. -/
theorem benign_csvData {op : FSOp} (h : opBenign op = true) : csvData op = none := by
  cases op with
  | makedirs p ok => rfl
  | write p d =>
      cases d with
      | text l => exact absurd h (by simp [opBenign])
      | csv r => exact absurd h (by simp [opBenign])
      | png => rfl
      | pnml => rfl

/-- A benign operation cannot fail. -/
theorem benign_opSafe {op : FSOp} (h : opBenign op = true) : opSafe op = true := by
  cases op with
  | makedirs p ok => exact h
  | write p d => rfl

/-- A trace of benign operations contains no CSV write. -/
theorem filterMap_csvData_nil : ∀ (ops : List FSOp),
    (∀ op ∈ ops, opBenign op = true) → List.filterMap csvData ops = []
  | [], _ => rfl
  | op :: rest, h => by
      have h1 : csvData op = none := benign_csvData (h op (List.mem_cons_self _ _))
      simp only [List.filterMap_cons, h1]
      exact filterMap_csvData_nil rest (fun o2 ho => h o2 (List.mem_cons_of_mem _ ho))

/-- Every operation emitted by the per-model loop is benign: the loop
creates directories with `exist_ok=True` and writes only PNG and PNML
files (the CSV is written after the loop, the text file before it). -/
theorem processModels_benign {E M V : Type} (algs : String → AlgOracle E V) (dir : String) :
    ∀ (l : List (String × M)) (op : FSOp),
      op ∈ (processModels algs dir l).1 → opBenign op = true
  | [], op, hop => by simp [processModels] at hop
  | (name, model) :: rest, op, hop => by
      have ih := processModels_benign algs dir rest
      rcases hr : processModels algs dir rest with ⟨rops, rres⟩
      rw [hr] at ih
      cases hv : (algs name).visualize_result with
      | error e =>
          simp only [processModels, visualize_model, hv] at hop
          simp only [List.mem_singleton] at hop
          subst hop; rfl
      | ok u =>
        cases he : (algs name).write_pnml_result with
        | error e =>
            simp only [processModels, visualize_model, hv, export_pnml, he] at hop
            simp only [List.cons_append, List.nil_append, List.mem_cons,
              List.not_mem_nil, or_false] at hop
            rcases hop with rfl | rfl | rfl <;> rfl
        | ok u2 =>
            cases rres with
            | error e =>
                simp only [processModels, visualize_model, hv, export_pnml, he, hr] at hop
                simp only [List.cons_append, List.nil_append, List.mem_cons] at hop
                rcases hop with rfl | rfl | rfl | rfl | h2
                · rfl
                · rfl
                · rfl
                · rfl
                · exact ih op h2
            | ok pr =>
                simp only [processModels, visualize_model, hv, export_pnml, he, hr] at hop
                simp only [List.cons_append, List.nil_append, List.mem_cons] at hop
                rcases hop with rfl | rfl | rfl | rfl | h2
                · rfl
                · rfl
                · rfl
                · rfl
                · exact ih op h2

/-- On loop success, the collected metrics list is exactly one
`calc_conformance` result per model, in dictionary order. -/
theorem processModels_ok {E M V : Type} (algs : String → AlgOracle E V) (dir : String) :
    ∀ (l : List (String × M)) {ops : List FSOp} {ms : List (Metrics V)}
      {ps : List (String × String)}
      (_ : processModels algs dir l = (ops, .ok (ms, ps))),
      ms = l.map (fun nm => calc_conformance (algs nm.1).conf nm.1)
  | [], ops, ms, ps, h => by
      simp only [processModels, Prod.mk.injEq, Except.ok.injEq] at h
      simp [← h.2.1]
  | (name, model) :: rest, ops, ms, ps, h => by
      rcases hr : processModels algs dir rest with ⟨rops, rres⟩
      cases hv : (algs name).visualize_result with
      | error e =>
          simp only [processModels, visualize_model, hv] at h
          exact absurd h (by simp)
      | ok u =>
        cases he : (algs name).write_pnml_result with
        | error e =>
            simp only [processModels, visualize_model, hv, export_pnml, he] at h
            exact absurd h (by simp)
        | ok u2 =>
            cases rres with
            | error e =>
                simp only [processModels, visualize_model, hv, export_pnml, he, hr] at h
                exact absurd h (by simp)
            | ok pr =>
                obtain ⟨ms2, ps2⟩ := pr
                have ih := processModels_ok algs dir rest hr
                simp only [processModels, visualize_model, hv, export_pnml, he, hr] at h
                rw [Prod.mk.injEq, Except.ok.injEq, Prod.mk.injEq] at h
                obtain ⟨-, hms, -⟩ := h
                rw [← hms, ih]
                rfl

/-- When every visualization and every PNML export succeeds, the loop
succeeds and collects one metrics dictionary per model. -/
theorem processModels_all_ok {E M V : Type} (algs : String → AlgOracle E V) (dir : String)
    (hvis : ∀ n, ∃ u, (algs n).visualize_result = .ok u)
    (hpnml : ∀ n, ∃ u, (algs n).write_pnml_result = .ok u) :
    ∀ (l : List (String × M)), ∃ ops ps,
      processModels algs dir l
        = (ops, .ok (l.map (fun nm => calc_conformance (algs nm.1).conf nm.1), ps))
  | [] => ⟨[], [], by simp [processModels]⟩
  | (name, model) :: rest => by
      obtain ⟨u1, hv⟩ := hvis name
      obtain ⟨u2, he⟩ := hpnml name
      obtain ⟨rops, rps, hr⟩ := processModels_all_ok algs dir hvis hpnml rest
      refine ⟨[FSOp.makedirs dir true,
               FSOp.write (joinPath dir (name ++ "_petri_net.png")) FData.png,
               FSOp.makedirs dir true,
               FSOp.write (joinPath dir (name ++ "_model.pnml")) FData.pnml] ++ rops,
              (name, joinPath dir (name ++ "_model.pnml")) :: rps, ?_⟩
      simp only [processModels, visualize_model, hv, export_pnml, he, hr]
      simp

/-- Normal form of a `process_event_log` trace: either nothing was
written (a load or miner failure), or the directory creation and the
complete execution-times write come first, followed by benign
per-model operations, followed — exactly when processing succeeded —
by the CSV write. -/
theorem process_event_log_trace {E M T V : Type} (fmt : V → String) (o : LogOracle E M T V)
    (dir : String) :
    (∃ e, process_event_log fmt o dir = ([], .error e))
    ∨ (∃ ops2 e, process_event_log fmt o dir
          = ([FSOp.makedirs dir true,
              FSOp.write (joinPath dir "execution_times.txt")
                (FData.text (executionTimesLines o.disc))] ++ ops2, .error e)
        ∧ ∀ op ∈ ops2, opBenign op = true)
    ∨ (∃ ops2 res, process_event_log fmt o dir
          = ([FSOp.makedirs dir true,
              FSOp.write (joinPath dir "execution_times.txt")
                (FData.text (executionTimesLines o.disc))] ++ ops2
              ++ save_conformance_to_csv fmt
                  (algNames.map (fun n => calc_conformance (o.algs n).conf n)) dir,
             .ok res)
        ∧ ∀ op ∈ ops2, opBenign op = true) := by
  cases hread : o.read_xes with
  | error e => exact Or.inl ⟨e, by simp only [process_event_log, hread]⟩
  | ok u =>
    cases hdisc : discover_models o.disc dir with
    | error e => exact Or.inl ⟨e, by simp only [process_event_log, hread, hdisc]⟩
    | ok pr =>
      obtain ⟨ops1, models⟩ := pr
      obtain ⟨hops1, hnames⟩ := discover_models_ok hdisc
      subst hops1
      rcases hpm : processModels (M := M) o.algs dir models with ⟨ops2, rres⟩
      have hben : ∀ op ∈ ops2, opBenign op = true := by
        have h2 := processModels_benign o.algs dir models
        rw [hpm] at h2
        exact h2
      cases rres with
      | error e =>
          refine Or.inr (Or.inl ⟨ops2, e, ?_, hben⟩)
          simp only [process_event_log, hread, hdisc, hpm]
      | ok pr2 =>
          obtain ⟨ms, ps⟩ := pr2
          have hms : ms = algNames.map (fun n => calc_conformance (o.algs n).conf n) := by
            rw [processModels_ok o.algs dir models hpm, ← hnames, List.map_map]
            rfl
          refine Or.inr (Or.inr ⟨ops2, (models, ps), ?_, hben⟩)
          simp only [process_event_log, hread, hdisc, hpm, hms]

/-- Every operation a per-log run performs is safe: each `makedirs`
carries `exist_ok=True` and each write overwrites. -/
theorem process_event_log_safe {E M T V : Type} (fmt : V → String) (o : LogOracle E M T V)
    (dir : String) : ∀ op ∈ (process_event_log fmt o dir).1, opSafe op = true := by
  rcases process_event_log_trace fmt o dir with ⟨e, he⟩ | ⟨ops2, e, he, hben⟩ |
    ⟨ops2, res, he, hben⟩
  · simp only [he]
    intro op hop
    simp at hop
  · simp only [he]
    intro op hop
    rcases List.mem_append.mp hop with h1 | h1
    · simp only [List.mem_cons, List.not_mem_nil, or_false] at h1
      rcases h1 with rfl | rfl <;> rfl
    · exact benign_opSafe (hben op h1)
  · simp only [he]
    intro op hop
    rcases List.mem_append.mp hop with h1 | h1
    · rcases List.mem_append.mp h1 with h2 | h2
      · simp only [List.mem_cons, List.not_mem_nil, or_false] at h2
        rcases h2 with rfl | rfl <;> rfl
      · exact benign_opSafe (hben op h2)
    · simp only [save_conformance_to_csv, List.mem_cons, List.not_mem_nil, or_false] at h1
      rcases h1 with rfl | rfl <;> rfl

/-- Every operation the whole run performs is safe. -/
theorem mainLoop_safe {E M T V : Type} (fmt : V → String)
    (oracles : String → LogOracle E M T V) (base : String) :
    ∀ (l : List DirEntry) (op : FSOp),
      op ∈ (mainLoop fmt oracles base l).1 → opSafe op = true
  | [], op, hop => by simp [mainLoop] at hop
  | fe :: rest, op, hop => by
      rcases hp : process_event_log fmt (oracles fe.name) (output_directory base fe)
        with ⟨ops, res⟩
      have hps : ∀ op2 ∈ ops, opSafe op2 = true := by
        have h2 := process_event_log_safe fmt (oracles fe.name) (output_directory base fe)
        rw [hp] at h2
        exact h2
      cases res with
      | error e =>
          simp only [mainLoop, hp] at hop
          exact hps op hop
      | ok r =>
          simp only [mainLoop, hp] at hop
          rcases List.mem_append.mp hop with h1 | h1
          · exact hps op h1
          · exact mainLoop_safe fmt oracles base rest op h1

/-- A trace of safe operations runs to completion from any file-system
state. -/
theorem runOps_safe : ∀ (ops : List FSOp), (∀ op ∈ ops, opSafe op = true) →
    ∀ (fs : FS), ∃ fs2, runOps fs ops = .ok fs2
  | [], _, fs => ⟨fs, rfl⟩
  | op :: rest, h, fs => by
      have hop := h op (List.mem_cons_self _ _)
      have hrest : ∀ o2 ∈ rest, opSafe o2 = true :=
        fun o2 ho => h o2 (List.mem_cons_of_mem _ ho)
      cases op with
      | makedirs p ok =>
          have hok : ok = true := hop
          subst hok
          simp only [runOps, runOp]
          by_cases hmem : p ∈ fs.dirs
          · simp only [if_pos hmem, if_true]
            exact runOps_safe rest hrest fs
          · simp only [if_neg hmem]
            exact runOps_safe rest hrest _
      | write p d =>
          simp only [runOps, runOp]
          exact runOps_safe rest hrest _

/-- If `discover_models` succeeds, every discovery-phase library call
returned normally. -/
theorem discover_models_ok_calls {E M T : Type} {o : DiscOracle E M T} {dir : String}
    {ops : List FSOp} {models : List (String × M)}
    (h : discover_models o dir = .ok (ops, models)) :
    (∃ m, o.alpha_apply = .ok m)
    ∧ (∃ t m, o.inductive_apply = .ok t ∧ o.convert_to_petri_net t = .ok m)
    ∧ (∃ m, o.heuristics_apply = .ok m)
    ∧ (∃ m, o.ilp_apply = .ok m) := by
  unfold discover_models at h
  cases ha : o.alpha_apply with
  | error e => simp only [ha] at h; exact Except.noConfusion h
  | ok alpha_net =>
    simp only [ha] at h
    cases hi : o.inductive_apply with
    | error e => simp only [hi] at h; exact Except.noConfusion h
    | ok process_tree =>
      simp only [hi] at h
      cases hc : o.convert_to_petri_net process_tree with
      | error e => simp only [hc] at h; exact Except.noConfusion h
      | ok inductive_net =>
        simp only [hc] at h
        cases hh : o.heuristics_apply with
        | error e => simp only [hh] at h; exact Except.noConfusion h
        | ok heuristics_net =>
          simp only [hh] at h
          cases hl : o.ilp_apply with
          | error e => simp only [hl] at h; exact Except.noConfusion h
          | ok ilp_net =>
            exact ⟨⟨_, rfl⟩, ⟨process_tree, inductive_net, rfl, hc⟩, ⟨_, rfl⟩, ⟨_, rfl⟩⟩

/-- If any of the discovery-phase library calls raises, `discover_models`
propagates some exception. -/
theorem discover_models_fails {E M T : Type} (o : DiscOracle E M T) (dir : String) (e : E)
    (hfail : o.alpha_apply = .error e ∨ o.inductive_apply = .error e
      ∨ (∃ t, o.inductive_apply = .ok t ∧ o.convert_to_petri_net t = .error e)
      ∨ o.heuristics_apply = .error e ∨ o.ilp_apply = .error e) :
    ∃ e2, discover_models o dir = (.error e2 : Except E (List FSOp × List (String × M))) := by
  cases hd : discover_models o dir with
  | error e2 => exact ⟨e2, rfl⟩
  | ok pr =>
    exfalso
    obtain ⟨ops, models⟩ := pr
    obtain ⟨⟨m1, ha⟩, ⟨t0, m2, hi, hc⟩, ⟨m3, hh⟩, ⟨m4, hl⟩⟩ := discover_models_ok_calls hd
    rcases hfail with h1 | h1 | ⟨t, h1, h2⟩ | h1 | h1
    · rw [ha] at h1; exact Except.noConfusion h1
    · rw [hi] at h1; exact Except.noConfusion h1
    · rw [hi] at h1
      injection h1 with h1
      subst h1
      rw [hc] at h2
      exact Except.noConfusion h2
    · rw [hh] at h1; exact Except.noConfusion h1
    · rw [hl] at h1; exact Except.noConfusion h1

/-- A concrete all-success discovery oracle for concrete runs. -/
def discW : DiscOracle String Nat Nat :=
  { alpha_apply := .ok 1
    inductive_apply := .ok 2
    convert_to_petri_net := fun t => .ok t
    heuristics_apply := .ok 3
    ilp_apply := .ok 4
    alpha_time := "0.101"
    inductive_time := "0.052"
    heuristics_time := "0.048"
    ilp_time := "0.120" }

/-- A concrete per-algorithm oracle whose alignment-fitness call raises
and whose other calls succeed. -/
def algW : AlgOracle String Nat :=
  { conf := oracleWithFailure MetricKey.fitness_alignments "boom" (fun _ => 7)
    visualize_result := .ok ()
    write_pnml_result := .ok () }

/-- A concrete per-log oracle: load and discovery succeed, one
conformance metric per algorithm raises, visualization and export
succeed. -/
def loW : LogOracle String Nat Nat Nat :=
  { read_xes := .ok (), disc := discW, algs := fun _ => algW }

/-- A concrete per-log oracle whose ILP miner raises. -/
def loW5 : LogOracle String Nat Nat Nat :=
  { read_xes := .ok ()
    disc := { discW with ilp_apply := .error "ilp failed" }
    algs := fun _ => algW }

/-- C1: each of the five conformance metric computations in
`calc_conformance` is guarded individually.  When exactly the metric for
key `k` raises, that metric is recorded as `None` (rendered as a blank
CSV cell) while the other four metric columns carry the library's
results, and the surrounding processing does not abort:
`process_event_log` still returns normally and writes the CSV containing
that algorithm's row, so the loop in `main` continues to the next
algorithm and file. -/
theorem C1_single_metric_failure_is_isolated {E M T V : Type} (fmt : V → String)
    (k : MetricKey) (e : E) (vs : MetricKey → V) (lo : LogOracle E M T V)
    (dir aName : String)
    (hA : aName ∈ algNames)
    (hconf : (lo.algs aName).conf = oracleWithFailure k e vs)
    (hread : ∃ u, lo.read_xes = .ok u)
    (hdisc : ∃ ops ms, discover_models lo.disc dir = .ok (ops, ms))
    (hvis : ∀ n, ∃ u, (lo.algs n).visualize_result = .ok u)
    (hpnml : ∀ n, ∃ u, (lo.algs n).write_pnml_result = .ok u) :
    metricAt k (calc_conformance (oracleWithFailure k e vs) aName) = none
    ∧ (∀ j, j ≠ k →
        metricAt j (calc_conformance (oracleWithFailure k e vs) aName) = some (vs j))
    ∧ (csvRow fmt (calc_conformance (oracleWithFailure k e vs) aName))[columnIndex k]?
        = some ""
    ∧ (∀ j, j ≠ k →
        (csvRow fmt (calc_conformance (oracleWithFailure k e vs) aName))[columnIndex j]?
          = some (fmt (vs j)))
    ∧ ∃ tr res, process_event_log fmt lo dir = (tr, .ok res)
        ∧ csvWrites tr = [fieldnames
            :: algNames.map (fun n => csvRow fmt (calc_conformance (lo.algs n).conf n))]
        ∧ csvRow fmt (calc_conformance (oracleWithFailure k e vs) aName)
            ∈ ((csvWrites tr).headD []).drop 1 := by
  refine ⟨?_, ?_, ?_, ?_, ?_⟩
  · cases k <;> simp [oracleWithFailure, calc_conformance, metricAt, tryCall]
  · intro j hj
    cases k <;> cases j <;>
      simp_all [oracleWithFailure, calc_conformance, metricAt, tryCall]
  · cases k <;>
      simp [oracleWithFailure, calc_conformance, csvRow, csvCell, columnIndex, tryCall]
  · intro j hj
    cases k <;> cases j <;>
      simp_all [oracleWithFailure, calc_conformance, csvRow, csvCell, columnIndex, tryCall]
  · obtain ⟨u, hr⟩ := hread
    obtain ⟨ops0, ms0, hd⟩ := hdisc
    obtain ⟨hops0, hnames⟩ := discover_models_ok hd
    obtain ⟨pops, pps, hp⟩ := processModels_all_ok lo.algs dir hvis hpnml ms0
    have hb : ∀ op ∈ pops, opBenign op = true := by
      have h2 := processModels_benign lo.algs dir ms0
      rw [hp] at h2
      exact h2
    have hms : ms0.map (fun nm => calc_conformance (lo.algs nm.1).conf nm.1)
        = algNames.map (fun n => calc_conformance (lo.algs n).conf n) := by
      rw [← hnames, List.map_map]
      rfl
    have heq : process_event_log fmt lo dir
        = (ops0 ++ pops ++ save_conformance_to_csv fmt
            (algNames.map (fun n => calc_conformance (lo.algs n).conf n)) dir,
           .ok (ms0, pps)) := by
      simp only [process_event_log, hr, hd, hp, hms]
    have hcsv : csvWrites (ops0 ++ pops ++ save_conformance_to_csv fmt
        (algNames.map (fun n => calc_conformance (lo.algs n).conf n)) dir)
        = [fieldnames
            :: algNames.map (fun n => csvRow fmt (calc_conformance (lo.algs n).conf n))] := by
      subst hops0
      unfold csvWrites
      rw [List.filterMap_append, List.filterMap_append, filterMap_csvData_nil pops hb]
      rfl
    refine ⟨_, _, heq, hcsv, ?_⟩
    rw [hcsv]
    simp only [List.headD_cons, List.drop_one, List.tail_cons]
    rw [← hconf]
    exact List.mem_map_of_mem _ hA

/-- C1 witness: a concrete run in which exactly the alignment-fitness
call raises; the failing metric is recorded as absent. -/
theorem C1_witness :
    "alpha" ∈ algNames
    ∧ metricAt MetricKey.fitness_alignments
        (calc_conformance
          (oracleWithFailure MetricKey.fitness_alignments "boom" (fun _ => (7 : Nat)))
          "alpha") = none :=
  ⟨by decide,
   (C1_single_metric_failure_is_isolated toString MetricKey.fitness_alignments "boom"
      (fun _ => 7) loW "out/log1.xes" "alpha" (by decide) rfl ⟨(), rfl⟩ ⟨_, _, rfl⟩
      (fun _ => ⟨(), rfl⟩) (fun _ => ⟨(), rfl⟩)).1⟩

/-- C2: for every log whose processing succeeds, exactly one CSV table
is written; it is the header row followed by exactly one data row per
discovery algorithm — 4 data rows — in the fixed order alpha, inductive,
heuristics, ilp (the first cell of each data row is the algorithm
name). -/
theorem C2_csv_one_row_per_algorithm_in_order {E M T V : Type} (fmt : V → String)
    (o : LogOracle E M T V) (dir : String) {tr : List FSOp}
    {res : List (String × M) × List (String × String)}
    (h : process_event_log fmt o dir = (tr, .ok res)) :
    csvWrites tr = [fieldnames
        :: algNames.map (fun n => csvRow fmt (calc_conformance (o.algs n).conf n))]
    ∧ (((csvWrites tr).headD []).drop 1).map (fun r => r.headD "") = algNames
    ∧ (((csvWrites tr).headD []).drop 1).length = 4 := by
  rcases process_event_log_trace fmt o dir with ⟨e, he⟩ | ⟨ops2, e, he, -⟩ |
    ⟨ops2, res2, he, hben⟩
  · rw [h] at he; simp at he
  · rw [h] at he; simp at he
  · rw [h] at he
    rw [Prod.mk.injEq] at he
    obtain ⟨htr, -⟩ := he
    subst htr
    have hcsv : csvWrites ([FSOp.makedirs dir true,
        FSOp.write (joinPath dir "execution_times.txt")
          (FData.text (executionTimesLines o.disc))] ++ ops2
        ++ save_conformance_to_csv fmt
            (algNames.map (fun n => calc_conformance (o.algs n).conf n)) dir)
        = [fieldnames
            :: algNames.map (fun n => csvRow fmt (calc_conformance (o.algs n).conf n))] := by
      unfold csvWrites
      rw [List.filterMap_append, List.filterMap_append, filterMap_csvData_nil ops2 hben]
      rfl
    refine ⟨hcsv, ?_, ?_⟩
    · rw [hcsv]
      simp [algNames, csvRow, calc_conformance]
    · rw [hcsv]
      simp [algNames]

/-- C2 witness: a concrete successful run writes the 4 data rows in the
fixed algorithm order. -/
theorem C2_witness :
    (((csvWrites (process_event_log toString loW "out/log1.xes").1).headD []).drop 1).map
        (fun r => r.headD "") = algNames :=
  (@C2_csv_one_row_per_algorithm_in_order String Nat Nat Nat toString loW
    "out/log1.xes" _ _ rfl).2.1

/-- C3: `main` processes the selected files in lexicographic
(code-point) order by filename: for every list of directory entries —
in any enumeration order — the sequence handed to the processing loop is
sorted by name and is a permutation of the selected entries, and `main`
is exactly the loop over that sorted sequence. -/
theorem C3_files_processed_in_sorted_order (entries : List DirEntry) :
    List.Sorted nameLe (sortByName (selectXes entries))
    ∧ (sortByName (selectXes entries)).Perm (selectXes entries)
    ∧ ∀ {E M T V : Type} (fmt : V → String) (oracles : String → LogOracle E M T V)
        (output_base_dir : String),
        main fmt oracles entries output_base_dir
          = mainLoop fmt oracles output_base_dir (sortByName (selectXes entries)) :=
  ⟨List.sorted_insertionSort nameLe _, List.perm_insertionSort nameLe _,
   fun _ _ _ => rfl⟩

/-- C4: file selection is exactly suffix-based and non-recursive: an
entry is processed iff it was enumerated, `entry.is_file()` holds, and
its name ends with ".xes"; entries with any other suffix, and
directories regardless of name, are never selected. -/
theorem C4_selection_is_suffix_based (entries : List DirEntry) (e : DirEntry) :
    e ∈ sortByName (selectXes entries)
      ↔ e ∈ entries ∧ e.is_file = true ∧ endsWith e.name ".xes" = true :=
  mem_sorted_selection entries e

/-- C5: there is no failure policy for the discovery calls: if any miner
call (or the process-tree conversion) raises, the exception propagates
out of `process_event_log` and the trace is empty — no execution-times
file, CSV, image, or PNML file is produced for that log. -/
theorem C5_miner_failure_aborts_log {E M T V : Type} (fmt : V → String)
    (lo : LogOracle E M T V) (dir : String) (e : E)
    (hread : ∃ u, lo.read_xes = .ok u)
    (hfail : lo.disc.alpha_apply = .error e ∨ lo.disc.inductive_apply = .error e
      ∨ (∃ t, lo.disc.inductive_apply = .ok t
          ∧ lo.disc.convert_to_petri_net t = .error e)
      ∨ lo.disc.heuristics_apply = .error e ∨ lo.disc.ilp_apply = .error e) :
    ∃ e2, process_event_log fmt lo dir = ([], .error e2) := by
  obtain ⟨u, hr⟩ := hread
  obtain ⟨e2, hd⟩ := discover_models_fails (M := M) lo.disc dir e hfail
  exact ⟨e2, by simp only [process_event_log, hr, hd]⟩

/-- C5 witness: a concrete run whose ILP miner raises produces no
file-system operation at all. -/
theorem C5_witness :
    ∃ e2, process_event_log toString loW5 "out/log1.xes" = ([], .error e2) :=
  C5_miner_failure_aborts_log toString loW5 "out/log1.xes" "ilp failed" ⟨(), rfl⟩
    (Or.inr (Or.inr (Or.inr (Or.inr rfl))))

/-- C6 counterexample: in a concrete successful run, the
execution-times file written by `discover_models` has 6 lines — the
two-line header plus the 4 name/time pairs — not exactly 4 lines of
pairs as claimed. -/
theorem C6_counterexample :
    ∃ ms, discover_models discW "output/log1.xes" = .ok
        ([FSOp.makedirs "output/log1.xes" true,
          FSOp.write (joinPath "output/log1.xes" "execution_times.txt")
            (FData.text (executionTimesLines discW))], ms)
      ∧ textWrites [FSOp.makedirs "output/log1.xes" true,
          FSOp.write (joinPath "output/log1.xes" "execution_times.txt")
            (FData.text (executionTimesLines discW))] = [executionTimesLines discW]
      ∧ (executionTimesLines discW).length = 6
      ∧ ¬ (executionTimesLines discW).length = 4 :=
  ⟨[("alpha", 1), ("inductive", 2), ("heuristics", 3), ("ilp", 4)],
   rfl, rfl, rfl, by decide⟩

/-- C6 (amended): for every successfully processed log, the
execution-times file consists of a two-line header followed by one
algorithm-name/elapsed-time pair per line, one for each of the 4
algorithms in order — 6 lines in total; it is the only text file the
discovery phase writes. -/
theorem C6_execution_times_file_shape {E M T : Type} {o : DiscOracle E M T} {dir : String}
    {ops : List FSOp} {ms : List (String × M)}
    (h : discover_models o dir = .ok (ops, ms)) :
    textWrites ops = [executionTimesLines o]
    ∧ (executionTimesLines o).length = 6
    ∧ (executionTimesLines o).take 2
        = ["Algorithm Execution Times (seconds)", "================================"]
    ∧ (executionTimesLines o).drop 2
        = ["alpha: " ++ o.alpha_time, "inductive: " ++ o.inductive_time,
           "heuristics: " ++ o.heuristics_time, "ilp: " ++ o.ilp_time] := by
  obtain ⟨hops, -⟩ := discover_models_ok h
  subst hops
  exact ⟨rfl, rfl, rfl, rfl⟩

/-- C6 witness: the amended shape at a concrete successful run. -/
theorem C6_witness :
    textWrites [FSOp.makedirs "output/log1.xes" true,
        FSOp.write (joinPath "output/log1.xes" "execution_times.txt")
          (FData.text (executionTimesLines discW))] = [executionTimesLines discW]
    ∧ (executionTimesLines discW).length = 6 :=
  have h := @C6_execution_times_file_shape String Nat Nat discW "output/log1.xes" _ _ rfl
  ⟨h.1, h.2.1⟩

/-- C7: output-directory creation is idempotent and writes overwrite:
every operation in a full run's trace is safe (`makedirs` always carries
`exist_ok=True`), so the trace executes without error from any starting
file-system state; in particular a second run over the state left by the
first also succeeds, overwriting the previous output files. -/
theorem C7_rerun_overwrites_without_error {E M T V : Type} (fmt : V → String)
    (oracles : String → LogOracle E M T V) (entries : List DirEntry)
    (output_base_dir : String) (fs : FS) :
    ∃ fs1 fs2,
      runOps fs (main fmt oracles entries output_base_dir).1 = .ok fs1
      ∧ runOps fs1 (main fmt oracles entries output_base_dir).1 = .ok fs2 := by
  have hsafe : ∀ op ∈ (main fmt oracles entries output_base_dir).1, opSafe op = true :=
    mainLoop_safe fmt oracles output_base_dir (sortByName (selectXes entries))
  obtain ⟨fs1, h1⟩ := runOps_safe _ hsafe fs
  obtain ⟨fs2, h2⟩ := runOps_safe _ hsafe fs1
  exact ⟨fs1, fs2, h1, h2⟩

/-- C8: the per-file output directory is the output base directory
joined with the input file's full name — ".xes" suffix included — so the
output subdirectory name itself ends in ".xes". -/
theorem C8_output_directory_keeps_xes_suffix (output_base_dir : String)
    (entries : List DirEntry) (e : DirEntry)
    (h : e ∈ sortByName (selectXes entries)) :
    output_directory output_base_dir e = joinPath output_base_dir e.name
    ∧ endsWith (output_directory output_base_dir e) ".xes" = true := by
  refine ⟨rfl, ?_⟩
  have hsel := (mem_sorted_selection entries e).mp h
  exact endsWith_joinPath output_base_dir e.name ".xes" hsel.2.2

/-- C8 witness: a concrete selected file keeps its suffix in the output
directory name. -/
theorem C8_witness :
    (⟨"log1.xes", true⟩ : DirEntry)
        ∈ sortByName (selectXes [⟨"notes.txt", true⟩, ⟨"log1.xes", true⟩])
    ∧ endsWith (output_directory "output" ⟨"log1.xes", true⟩) ".xes" = true :=
  ⟨by decide,
   (C8_output_directory_keeps_xes_suffix "output"
      [⟨"notes.txt", true⟩, ⟨"log1.xes", true⟩] ⟨"log1.xes", true⟩ (by decide)).2⟩

/-- C9: `calc_conformance` always returns the six-key dictionary (the
`Metrics` record): the `algorithm` entry equals the argument unchanged,
and each metric entry is the library's value when that call returned and
`None` when it raised — no key is ever missing, whatever fails. -/
theorem C9_calc_conformance_total_shape {E V : Type} (o : ConfOracle E V)
    (algorithm_name : String) :
    (calc_conformance o algorithm_name).algorithm = algorithm_name
    ∧ ∀ k : MetricKey,
        (∀ v, oracleAt k o = .ok v
          → metricAt k (calc_conformance o algorithm_name) = some v)
        ∧ ∀ e2, oracleAt k o = .error e2
          → metricAt k (calc_conformance o algorithm_name) = none := by
  refine ⟨rfl, fun k => ⟨fun v hv => ?_, fun e2 he => ?_⟩⟩
  · cases k <;> simp_all [oracleAt, metricAt, calc_conformance, tryCall]
  · cases k <;> simp_all [oracleAt, metricAt, calc_conformance, tryCall]

/-- A concrete conformance oracle with one raising call. -/
def oW9 : ConfOracle String Nat :=
  { fitness_alignments := .error "boom"
    fitness_token_based_replay := .ok 2
    precision_alignments := .ok 3
    precision_token_based_replay := .ok 4
    generalization_tbr := .ok 5 }

/-- C9 witness: concrete evaluation of the returned dictionary. -/
theorem C9_witness :
    (calc_conformance oW9 "alpha").algorithm = "alpha"
    ∧ metricAt MetricKey.generalization (calc_conformance oW9 "alpha") = some 5
    ∧ metricAt MetricKey.fitness_alignments (calc_conformance oW9 "alpha") = none :=
  ⟨(C9_calc_conformance_total_shape oW9 "alpha").1,
   ((C9_calc_conformance_total_shape oW9 "alpha").2 MetricKey.generalization).1 5 rfl,
   ((C9_calc_conformance_total_shape oW9 "alpha").2 MetricKey.fitness_alignments).2
     "boom" rfl⟩

/-- C10: within one log's processing, the per-log directory creation and
the complete execution-times write are the first two operations of the
trace, before any conformance, visualization, or export operation; and
whenever processing later aborts, the trace still starts with the
complete timing write while no CSV write ever occurs. -/
theorem C10_times_written_before_later_steps {E M T V : Type} (fmt : V → String)
    (lo : LogOracle E M T V) (dir : String)
    (hread : ∃ u, lo.read_xes = .ok u)
    {ops1 : List FSOp} {ms : List (String × M)}
    (hdisc : discover_models lo.disc dir = .ok (ops1, ms)) :
    ∃ rest, (process_event_log fmt lo dir).1
        = FSOp.makedirs dir true
          :: FSOp.write (joinPath dir "execution_times.txt")
              (FData.text (executionTimesLines lo.disc))
          :: rest
      ∧ ((process_event_log fmt lo dir).2.isOk = false →
          csvWrites (process_event_log fmt lo dir).1 = []) := by
  obtain ⟨u, hr⟩ := hread
  obtain ⟨hops1, -⟩ := discover_models_ok hdisc
  rcases hpm : processModels (M := M) lo.algs dir ms with ⟨ops2, rres⟩
  have hben : ∀ op ∈ ops2, opBenign op = true := by
    have h2 := processModels_benign lo.algs dir ms
    rw [hpm] at h2
    exact h2
  cases rres with
  | error e =>
      refine ⟨ops2, ?_, fun _ => ?_⟩
      · simp [process_event_log, hr, hdisc, hpm, hops1]
      · have htr : (process_event_log fmt lo dir).1 = ops1 ++ ops2 := by
          simp [process_event_log, hr, hdisc, hpm]
        rw [htr, hops1]
        unfold csvWrites
        rw [List.filterMap_append, filterMap_csvData_nil ops2 hben]
        rfl
  | ok pr =>
      obtain ⟨ms2, ps2⟩ := pr
      refine ⟨ops2 ++ save_conformance_to_csv fmt ms2 dir, ?_, fun h2 => ?_⟩
      · simp [process_event_log, hr, hdisc, hpm, hops1]
      · exfalso
        rw [show (process_event_log fmt lo dir).2
              = Except.ok ((ms, ps2) :
                  List (String × M) × List (String × String)) from by
            simp [process_event_log, hr, hdisc, hpm]] at h2
        simp [Except.isOk, Except.toBool] at h2

/-- C10 witness: the trace shape at a concrete run. -/
theorem C10_witness :
    ∃ rest, (process_event_log toString loW "out/log2.xes").1
        = FSOp.makedirs "out/log2.xes" true
          :: FSOp.write (joinPath "out/log2.xes" "execution_times.txt")
              (FData.text (executionTimesLines loW.disc))
          :: rest
      ∧ ((process_event_log toString loW "out/log2.xes").2.isOk = false →
          csvWrites (process_event_log toString loW "out/log2.xes").1 = []) :=
  C10_times_written_before_later_steps toString loW "out/log2.xes" ⟨(), rfl⟩ rfl

end Pipeline
